import Mathlib

set_option maxRecDepth 16384

/-!
Verification of the RAG notebook pipeline (peichels/ragstack).

The repository is a single notebook wiring external components together:
a corpus loader (`load_articles`), a text chunker
(`RecursiveCharacterTextSplitter(chunk_size=1000, chunk_overlap=0)`),
a vector store (Cassandra + HuggingFace embeddings) and two literal
chat-prompt templates. The loader, the templates and all configuration
constants are embedded from the notebook source. The chunker and the
vector store implementations live in external libraries (langchain,
cassandra); they are modelled from the specification's contracts, as
noted on each definition.

Texts are modelled as `List Char`; a chunk is a contiguous segment of an
article's character list.
-/

namespace RagStack

/-! ### Chunker

Modelled from the spec: the splitter implementation is
`langchain.text_splitter.RecursiveCharacterTextSplitter`, external to the
repository; the notebook only configures it with `chunk_size=1000`,
`chunk_overlap=0`. Per the spec's contract the splitter prefers natural
boundaries (paragraph, then sentence, then word) before falling back to a
hard character cut at the maximum length, then packs the resulting pieces
greedily into chunks of at most the maximum length; overlap of size K
prepends the final K characters of the previous chunk's source span. -/

/-- Split a text into pieces, cutting after every character satisfying `p`
(the separator stays at the end of its piece, so pieces concatenate back
to the input). -/
def splitAfter (p : Char → Bool) : List Char → List (List Char)
  | [] => []
  | c :: rest =>
    if p c then [c] :: splitAfter p rest
    else
      match splitAfter p rest with
      | [] => [[c]]
      | h :: t => (c :: h) :: t

/-- Hard character cut: slice a text into consecutive pieces of `m`
characters (final piece possibly shorter). The fuel argument bounds the
recursion; it is instantiated with the text's length. -/
def hardCutFuel (m : Nat) : Nat → List Char → List (List Char)
  | _, [] => []
  | 0, c :: rest => [c :: rest]
  | fuel + 1, c :: rest =>
    (c :: rest.take (m - 1)) :: hardCutFuel m fuel (rest.drop (m - 1))

/-- Hard character cut at width `m`. -/
def hardCut (m : Nat) (l : List Char) : List (List Char) := hardCutFuel m l.length l

/-- Split every piece longer than `m` with the finer splitter `cut`;
pieces already within the bound are kept whole. -/
def refinePieces (m : Nat) (cut : List Char → List (List Char))
    (ps : List (List Char)) : List (List Char) :=
  ps.flatMap fun p => if p.length ≤ m then [p] else cut p

/-- Atomic pieces of an article: split at paragraph/line boundaries, then
split the still-oversized pieces at sentence boundaries, then at word
boundaries, and hard-cut whatever single word is still longer than `m`. -/
def atoms (m : Nat) (l : List Char) : List (List Char) :=
  refinePieces m (hardCut m)
    (refinePieces m (splitAfter fun c => c == ' ')
      (refinePieces m (splitAfter fun c => c == '.')
        (splitAfter (fun c => c == '\n') l)))

/-- Greedily pack pieces into chunks of length at most `m`: the
accumulator `acc` holds the chunk being grown; a piece that does not fit
closes the current chunk and starts the next one. -/
def mergeAcc (m : Nat) : List (List Char) → List Char → List (List Char)
  | [], acc => if acc.isEmpty then [] else [acc]
  | p :: ps, acc =>
    if acc.isEmpty then mergeAcc m ps p
    else if acc.length + p.length ≤ m then mergeAcc m ps (acc ++ p)
    else acc :: mergeAcc m ps p

/-- Split one text into chunks of at most `m` characters, preferring
natural boundaries (spec contract of the external recursive character
splitter). -/
def splitText (m : Nat) (l : List Char) : List (List Char) :=
  mergeAcc m (atoms m l) []

/-- Overlap of size `k`: each chunk after the first repeats the final `k`
characters of the previous chunk's source span (spec contract; the
notebook configures `chunk_overlap=0`). -/
def addOverlap (k : Nat) (cs : List (List Char)) : List (List Char) :=
  match cs with
  | [] => []
  | c0 :: rest =>
    c0 :: List.zipWith (fun prev cur => prev.drop (prev.length - k) ++ cur) cs rest

/-- The Chunker: flat ordered chunk sequence of a batch of articles, with
maximum chunk length `m` and overlap `k`. -/
def chunker (m k : Nat) (arts : List (List Char)) : List (List Char) :=
  arts.flatMap fun a => addOverlap k (splitText m a)

/-- Notebook line `documents = splitter.create_documents(articles)`:
split each article, keeping the flat document list. -/
def create_documents (m : Nat) (arts : List (List Char)) : List (List Char) :=
  arts.flatMap (splitText m)

/-- Notebook line `document_chunks = splitter.split_documents(documents)`:
re-split each document with the same splitter. -/
def split_documents (m : Nat) (docs : List (List Char)) : List (List Char) :=
  docs.flatMap (splitText m)

/-! Basic chunker lemmas. -/

theorem splitAfter_cons (p : Char → Bool) (c : Char) (rest : List Char) :
    splitAfter p (c :: rest) =
      if p c then [c] :: splitAfter p rest
      else
        match splitAfter p rest with
        | [] => [[c]]
        | h :: t => (c :: h) :: t := rfl

theorem splitAfter_flatten (p : Char → Bool) : ∀ l, (splitAfter p l).flatten = l := by
  intro l
  induction l with
  | nil => rfl
  | cons c rest ih =>
    rw [splitAfter_cons]
    by_cases hc : p c
    · rw [if_pos hc]
      simp [ih]
    · rw [if_neg hc]
      cases h : splitAfter p rest with
      | nil =>
        rw [h] at ih
        simp only [List.flatten_nil] at ih
        simp [← ih]
      | cons hd tl =>
        rw [h] at ih
        simp only [List.flatten_cons] at ih ⊢
        simp [← ih]

theorem splitAfter_ne_nil (p : Char → Bool) :
    ∀ l, ∀ c ∈ splitAfter p l, c ≠ [] := by
  intro l
  induction l with
  | nil => intro c hc; simp [splitAfter] at hc
  | cons a rest ih =>
    intro c hc
    rw [splitAfter_cons] at hc
    by_cases ha : p a
    · rw [if_pos ha] at hc
      rcases List.mem_cons.mp hc with rfl | hc
      · simp
      · exact ih c hc
    · rw [if_neg ha] at hc
      cases h : splitAfter p rest with
      | nil =>
        rw [h] at hc
        rcases List.mem_singleton.mp hc with rfl
        simp
      | cons hd tl =>
        rw [h] at hc
        rcases List.mem_cons.mp hc with rfl | hc
        · simp
        · exact ih c (by rw [h]; exact List.mem_cons_of_mem _ hc)

theorem hardCutFuel_flatten (m : Nat) :
    ∀ fuel l, l.length ≤ fuel → (hardCutFuel m fuel l).flatten = l := by
  intro fuel
  induction fuel with
  | zero =>
    intro l hl
    have : l = [] := List.length_eq_zero.mp (Nat.le_zero.mp hl)
    subst this; rfl
  | succ f ih =>
    intro l hl
    cases l with
    | nil => rfl
    | cons c rest =>
      simp only [hardCutFuel, List.flatten_cons]
      rw [ih (rest.drop (m - 1)) ?_]
      · simp [List.take_append_drop]
      · have h1 : rest.length ≤ f := by
          simpa using Nat.succ_le_succ_iff.mp hl
        calc (rest.drop (m - 1)).length ≤ rest.length := by
              simp [List.length_drop]
          _ ≤ f := h1

theorem hardCutFuel_le (m : Nat) (hm : 1 ≤ m) :
    ∀ fuel l, l.length ≤ fuel → ∀ c ∈ hardCutFuel m fuel l, c.length ≤ m := by
  intro fuel
  induction fuel with
  | zero =>
    intro l hl c hc
    have : l = [] := List.length_eq_zero.mp (Nat.le_zero.mp hl)
    subst this; simp [hardCutFuel] at hc
  | succ f ih =>
    intro l hl c hc
    cases l with
    | nil => simp [hardCutFuel] at hc
    | cons a rest =>
      simp only [hardCutFuel, List.mem_cons] at hc
      rcases hc with rfl | hc
      · simp only [List.length_cons, List.length_take]
        omega
      · exact ih _ (by
          have h1 : rest.length ≤ f := by simpa using Nat.succ_le_succ_iff.mp hl
          calc (rest.drop (m - 1)).length ≤ rest.length := by simp [List.length_drop]
            _ ≤ f := h1) c hc

theorem hardCutFuel_ne (m : Nat) :
    ∀ fuel l, ∀ c ∈ hardCutFuel m fuel l, c ≠ [] := by
  intro fuel
  induction fuel with
  | zero =>
    intro l c hc
    cases l with
    | nil => simp [hardCutFuel] at hc
    | cons a rest =>
      simp only [hardCutFuel, List.mem_singleton] at hc
      subst hc; simp
  | succ f ih =>
    intro l c hc
    cases l with
    | nil => simp [hardCutFuel] at hc
    | cons a rest =>
      simp only [hardCutFuel, List.mem_cons] at hc
      rcases hc with rfl | hc
      · simp
      · exact ih _ c hc

theorem hardCut_flatten (m : Nat) (l : List Char) : (hardCut m l).flatten = l :=
  hardCutFuel_flatten m l.length l le_rfl

theorem hardCut_le (m : Nat) (hm : 1 ≤ m) (l : List Char) :
    ∀ c ∈ hardCut m l, c.length ≤ m :=
  hardCutFuel_le m hm l.length l le_rfl

theorem hardCut_ne (m : Nat) (l : List Char) : ∀ c ∈ hardCut m l, c ≠ [] :=
  hardCutFuel_ne m l.length l

theorem refinePieces_flatten (m : Nat) (cut : List Char → List (List Char))
    (hcut : ∀ p, (cut p).flatten = p) (ps : List (List Char)) :
    (refinePieces m cut ps).flatten = ps.flatten := by
  induction ps with
  | nil => rfl
  | cons p ps ih =>
    simp only [refinePieces, List.flatMap_cons, List.flatten_append] at *
    rw [ih]
    by_cases hp : p.length ≤ m
    · simp [hp]
    · simp [hp, hcut]

theorem refinePieces_le (m : Nat) (cut : List Char → List (List Char))
    (hcut : ∀ p, ∀ c ∈ cut p, c.length ≤ m) (ps : List (List Char)) :
    ∀ c ∈ refinePieces m cut ps, c.length ≤ m := by
  intro c hc
  simp only [refinePieces, List.mem_flatMap] at hc
  rcases hc with ⟨p, _, hcp⟩
  by_cases hp : p.length ≤ m
  · simp only [hp, if_true, List.mem_singleton] at hcp
    subst hcp; exact hp
  · simp only [hp, if_false] at hcp
    exact hcut p c hcp

theorem refinePieces_ne (m : Nat) (cut : List Char → List (List Char))
    (hcut : ∀ p, ∀ c ∈ cut p, c ≠ []) (ps : List (List Char))
    (hps : ∀ p ∈ ps, p ≠ []) :
    ∀ c ∈ refinePieces m cut ps, c ≠ [] := by
  intro c hc
  simp only [refinePieces, List.mem_flatMap] at hc
  rcases hc with ⟨p, hp, hcp⟩
  by_cases hpl : p.length ≤ m
  · simp only [hpl, if_true, List.mem_singleton] at hcp
    subst hcp; exact hps _ hp
  · simp only [hpl, if_false] at hcp
    exact hcut p c hcp

theorem atoms_flatten (m : Nat) (l : List Char) : (atoms m l).flatten = l := by
  unfold atoms
  rw [refinePieces_flatten m _ (hardCut_flatten m),
    refinePieces_flatten m _ (splitAfter_flatten _),
    refinePieces_flatten m _ (splitAfter_flatten _),
    splitAfter_flatten]

theorem atoms_le (m : Nat) (hm : 1 ≤ m) (l : List Char) :
    ∀ c ∈ atoms m l, c.length ≤ m := by
  unfold atoms
  exact refinePieces_le m _ (fun p => hardCut_le m hm p) _

theorem atoms_ne (m : Nat) (l : List Char) : ∀ c ∈ atoms m l, c ≠ [] := by
  unfold atoms
  exact refinePieces_ne m _ (fun p => hardCut_ne m p) _
    (refinePieces_ne m _ (fun p => splitAfter_ne_nil _ p) _
      (refinePieces_ne m _ (fun p => splitAfter_ne_nil _ p) _
        (splitAfter_ne_nil _ l)))

theorem mergeAcc_nil (m : Nat) (acc : List Char) :
    mergeAcc m [] acc = if acc.isEmpty then [] else [acc] := rfl

theorem mergeAcc_cons (m : Nat) (p : List Char) (ps : List (List Char))
    (acc : List Char) :
    mergeAcc m (p :: ps) acc =
      if acc.isEmpty then mergeAcc m ps p
      else if acc.length + p.length ≤ m then mergeAcc m ps (acc ++ p)
      else acc :: mergeAcc m ps p := rfl

theorem mergeAcc_flatten (m : Nat) :
    ∀ ps acc, (mergeAcc m ps acc).flatten = acc ++ ps.flatten := by
  intro ps
  induction ps with
  | nil =>
    intro acc
    rw [mergeAcc_nil]
    by_cases h : acc.isEmpty
    · rw [if_pos h, List.isEmpty_iff.mp h]
      rfl
    · rw [if_neg h]
      simp
  | cons p ps ih =>
    intro acc
    rw [mergeAcc_cons]
    by_cases h : acc.isEmpty
    · rw [if_pos h, List.isEmpty_iff.mp h, ih]
      simp
    · rw [if_neg h]
      by_cases hfit : acc.length + p.length ≤ m
      · rw [if_pos hfit, ih]
        simp
      · rw [if_neg hfit]
        simp [ih]

theorem mergeAcc_le (m : Nat) :
    ∀ ps acc, acc.length ≤ m → (∀ p ∈ ps, p.length ≤ m) →
      ∀ c ∈ mergeAcc m ps acc, c.length ≤ m := by
  intro ps
  induction ps with
  | nil =>
    intro acc hacc _ c hc
    rw [mergeAcc_nil] at hc
    by_cases h : acc.isEmpty
    · rw [if_pos h] at hc
      simp at hc
    · rw [if_neg h] at hc
      rcases List.mem_singleton.mp hc with rfl
      exact hacc
  | cons p ps ih =>
    intro acc hacc hps c hc
    have hp : p.length ≤ m := hps p (List.mem_cons_self _ _)
    have hps' : ∀ q ∈ ps, q.length ≤ m := fun q hq => hps q (List.mem_cons_of_mem _ hq)
    rw [mergeAcc_cons] at hc
    by_cases h : acc.isEmpty
    · rw [if_pos h] at hc
      exact ih p hp hps' c hc
    · rw [if_neg h] at hc
      by_cases hfit : acc.length + p.length ≤ m
      · rw [if_pos hfit] at hc
        exact ih _ (by simpa using hfit) hps' c hc
      · rw [if_neg hfit] at hc
        rcases List.mem_cons.mp hc with rfl | hc
        · exact hacc
        · exact ih p hp hps' c hc

theorem mergeAcc_ne (m : Nat) :
    ∀ ps acc, (∀ p ∈ ps, p ≠ []) → ∀ c ∈ mergeAcc m ps acc, c ≠ [] := by
  intro ps
  induction ps with
  | nil =>
    intro acc _ c hc
    rw [mergeAcc_nil] at hc
    by_cases h : acc.isEmpty
    · rw [if_pos h] at hc
      simp at hc
    · rw [if_neg h] at hc
      rcases List.mem_singleton.mp hc with rfl
      intro hn
      rw [hn] at h
      simp at h
  | cons p ps ih =>
    intro acc hps c hc
    have hp : p ≠ [] := hps p (List.mem_cons_self _ _)
    have hps' : ∀ q ∈ ps, q ≠ [] := fun q hq => hps q (List.mem_cons_of_mem _ hq)
    rw [mergeAcc_cons] at hc
    by_cases h : acc.isEmpty
    · rw [if_pos h] at hc
      exact ih p hps' c hc
    · rw [if_neg h] at hc
      by_cases hfit : acc.length + p.length ≤ m
      · rw [if_pos hfit] at hc
        exact ih _ hps' c hc
      · rw [if_neg hfit] at hc
        rcases List.mem_cons.mp hc with rfl | hc
        · intro hn; rw [hn] at h; simp at h
        · exact ih p hps' c hc

theorem mergeAcc_fits (m : Nat) :
    ∀ ps acc, (∀ p ∈ ps, p ≠ []) → acc ++ ps.flatten ≠ [] →
      (acc ++ ps.flatten).length ≤ m →
      mergeAcc m ps acc = [acc ++ ps.flatten] := by
  intro ps
  induction ps with
  | nil =>
    intro acc _ hne _
    simp only [List.flatten_nil, List.append_nil] at hne ⊢
    have h : ¬acc.isEmpty := by
      cases acc with
      | nil => exact absurd rfl hne
      | cons a l => simp
    rw [mergeAcc_nil, if_neg h]
  | cons p ps ih =>
    intro acc hps hne hlen
    have hp : p ≠ [] := hps p (List.mem_cons_self _ _)
    have hps' : ∀ q ∈ ps, q ≠ [] := fun q hq => hps q (List.mem_cons_of_mem _ hq)
    rw [mergeAcc_cons]
    by_cases h : acc.isEmpty
    · rw [if_pos h, List.isEmpty_iff.mp h]
      rw [List.isEmpty_iff.mp h] at hlen
      rw [ih p hps' ?_ ?_]
      · simp
      · intro hcontra
        exact hp (List.append_eq_nil.mp hcontra).1
      · simpa using hlen
    · have hfit : acc.length + p.length ≤ m := by
        simp only [List.flatten_cons, List.length_append] at hlen
        omega
      rw [if_neg h, if_pos hfit]
      rw [ih (acc ++ p) hps' ?_ ?_]
      · simp
      · intro hcontra
        have : acc = [] := (List.append_eq_nil.mp (List.append_eq_nil.mp hcontra).1).1
        rw [this] at h; simp at h
      · simpa [List.flatten_cons] using hlen

theorem splitText_flatten (m : Nat) (l : List Char) :
    (splitText m l).flatten = l := by
  unfold splitText
  rw [mergeAcc_flatten, atoms_flatten]
  rfl

theorem splitText_le (m : Nat) (hm : 1 ≤ m) (l : List Char) :
    ∀ c ∈ splitText m l, c.length ≤ m := by
  unfold splitText
  exact mergeAcc_le m _ [] (by simp) (atoms_le m hm l)

theorem splitText_ne (m : Nat) (l : List Char) :
    ∀ c ∈ splitText m l, c ≠ [] := by
  unfold splitText
  exact mergeAcc_ne m _ [] (atoms_ne m l)

theorem splitText_small (m : Nat) (l : List Char) (h0 : l ≠ [])
    (h1 : l.length ≤ m) : splitText m l = [l] := by
  unfold splitText
  rw [mergeAcc_fits m _ [] (atoms_ne m l) ?_ ?_]
  · rw [List.nil_append, atoms_flatten]
  · rw [List.nil_append, atoms_flatten]; exact h0
  · rw [List.nil_append, atoms_flatten]; exact h1

theorem addOverlap_zero (cs : List (List Char)) : addOverlap 0 cs = cs := by
  cases cs with
  | nil => rfl
  | cons c0 rest =>
    simp only [addOverlap]
    congr 1
    have : ∀ (a : List (List Char)) (b : List (List Char)), b.length ≤ a.length →
        List.zipWith (fun prev cur => prev.drop (prev.length - 0) ++ cur) a b = b := by
      intro a b
      induction b generalizing a with
      | nil => intro _; simp
      | cons x xs ih =>
        intro hlen
        cases a with
        | nil => simp at hlen
        | cons y ys =>
          simp only [List.zipWith_cons_cons]
          rw [Nat.sub_zero, List.drop_length, List.nil_append, ih ys (by simpa using hlen)]
    exact this (c0 :: rest) rest (by simp)

/-! ### Corpus Loader

The notebook defines

```
def load_articles(n=5):
  dataset = datasets.load_dataset('cnn_dailymail', '3.0.0', split='train', streaming=True)
  data = dataset.take(n)
  return [d['article'] for d in data]
```

The upstream streaming dataset is abstracted as a finite list of rows;
`dataset.take n` yields the first `min n available` rows in source order,
and the comprehension projects the `article` field. -/

/-- A row of the CNN/DailyMail dataset: an `article` text plus its
`highlights` summary. -/
structure DatasetRow where
  article : List Char
  highlights : List Char
deriving DecidableEq

/-- Embedding of the notebook's `load_articles`: take the first `n` rows
of the upstream dataset and project the article text of each. -/
def load_articles (dataset : List DatasetRow) (n : Nat) : List (List Char) :=
  (dataset.take n).map DatasetRow.article

/-! ### Claim theorems for the Chunker and the Loader -/

/-- Claim C1: with the notebook's configuration (`chunk_size=1000`,
`chunk_overlap=0`), every chunk the Chunker produces from any list of
articles has length at most 1000 characters. -/
theorem chunker_max_len (arts : List (List Char)) (c : List Char)
    (hc : c ∈ chunker 1000 0 arts) : c.length ≤ 1000 := by
  simp only [chunker, List.mem_flatMap] at hc
  rcases hc with ⟨a, _, hca⟩
  rw [addOverlap_zero] at hca
  exact splitText_le 1000 (by norm_num) a c hca

/-- Witness for C1 at a concrete input. -/
theorem chunker_max_len_check :
    "hi".data ∈ chunker 1000 0 ["hi".data] ∧ ("hi".data).length ≤ 1000 :=
  ⟨by decide, chunker_max_len ["hi".data] "hi".data (by decide)⟩

/-- Claim C2: with overlap 0, concatenating in order the chunks the
Chunker produces from an article yields exactly the original article
text. -/
theorem chunker_reconstructs (a : List Char) :
    (addOverlap 0 (splitText 1000 a)).flatten = a := by
  rw [addOverlap_zero]
  exact splitText_flatten 1000 a

/-- Claim C7: the Chunker is deterministic — two runs on equal inputs with
equal configuration (maximum length and overlap) produce equal chunk
sequences. -/
theorem chunker_deterministic (m₁ m₂ k₁ k₂ : Nat)
    (arts₁ arts₂ : List (List Char)) (hm : m₁ = m₂) (hk : k₁ = k₂)
    (ha : arts₁ = arts₂) : chunker m₁ k₁ arts₁ = chunker m₂ k₂ arts₂ := by
  rw [hm, hk, ha]

/-- Witness for C7 at a concrete input. -/
theorem chunker_deterministic_check :
    (1000 : Nat) = 1000 ∧ (0 : Nat) = 0 ∧ ["hi".data] = ["hi".data] ∧
      chunker 1000 0 ["hi".data] = chunker 1000 0 ["hi".data] :=
  ⟨rfl, rfl, rfl, chunker_deterministic 1000 1000 0 0 ["hi".data] ["hi".data] rfl rfl rfl⟩

/-- Splitting a list of documents that are all nonempty and within the
length bound is the identity. -/
theorem flatMap_splitText_of_small (m : Nat) :
    ∀ docs : List (List Char), (∀ d ∈ docs, d ≠ [] ∧ d.length ≤ m) →
      docs.flatMap (splitText m) = docs := by
  intro docs
  induction docs with
  | nil => intro _; rfl
  | cons d ds ih =>
    intro h
    have hd := h d (List.mem_cons_self _ _)
    rw [List.flatMap_cons, splitText_small m d hd.1 hd.2,
      ih fun q hq => h q (List.mem_cons_of_mem _ hq)]
    rfl

/-- Claim C10: the notebook's second splitting pass is a no-op —
`split_documents` applied to the output of `create_documents` (documents
already split to the configured maximum length) returns the same document
sequence. -/
theorem split_documents_noop (arts : List (List Char)) :
    split_documents 1000 (create_documents 1000 arts) = create_documents 1000 arts := by
  unfold split_documents
  apply flatMap_splitText_of_small
  intro d hd
  simp only [create_documents, List.mem_flatMap] at hd
  rcases hd with ⟨a, _, hda⟩
  exact ⟨splitText_ne 1000 a d hda, splitText_le 1000 (by norm_num) a d hda⟩

/-- Claim C5: `load_articles` returns exactly `min n available` article
texts, preserving the upstream source order (its output is a prefix of
the full article projection of the dataset). -/
theorem load_articles_spec (dataset : List DatasetRow) (n : Nat) :
    (load_articles dataset n).length = min n dataset.length ∧
      load_articles dataset n <+: dataset.map DatasetRow.article := by
  constructor
  · simp [load_articles, List.length_take]
  · rw [load_articles, List.map_take]
    exact ⟨(dataset.map DatasetRow.article).drop n, List.take_append_drop _ _⟩

/-! ### Vector Store Adapter

Modelled from the spec: the store implementation is the external
Cassandra vector table behind `langchain_community.vectorstores.Cassandra`;
the notebook only calls `vector_store.add_documents(document_chunks)` and
`vector_store.similarity_search(query, k=2)`. Per the spec, Write inserts
one Stored Record (chunk text, embedding, generated id) per chunk with no
deduplication, and Query embeds the query text and returns the `k`
nearest stored records in ascending distance order under the database's
(unspecified) metric, which is kept as a parameter. -/

/-- A Stored Record persisted in the external vector database: chunk
text, embedding vector, generated identifier. -/
structure StoredRecord where
  text : List Char
  emb : List ℚ
  rid : Nat
deriving DecidableEq

/-- Write operation: for each chunk, obtain an embedding via the external
embedding function and append a fresh Stored Record; no deduplication. -/
def writeChunks (embed : List Char → List ℚ) (st : List StoredRecord)
    (chunks : List (List Char)) : List StoredRecord :=
  st ++ chunks.enum.map fun ic => ⟨ic.2, embed ic.2, st.length + ic.1⟩

/-- Query operation: embed the query text, order the stored records by
ascending distance to the query embedding, return the first `k`. -/
def queryStore (dist : List ℚ → List ℚ → ℚ) (embed : List Char → List ℚ)
    (st : List StoredRecord) (text : List Char) (k : Nat) : List StoredRecord :=
  (st.insertionSort fun a b =>
    dist (embed text) a.emb ≤ dist (embed text) b.emb).take k

/-- Claim C4: for `k` at most the number of stored records, Query returns
exactly `k` results, ordered by non-decreasing distance between the query
embedding and the stored embeddings. -/
theorem query_returns_k_sorted (dist : List ℚ → List ℚ → ℚ)
    (embed : List Char → List ℚ) (st : List StoredRecord) (text : List Char)
    (k : Nat) (hk : k ≤ st.length) :
    (queryStore dist embed st text k).length = k ∧
      (queryStore dist embed st text k).Sorted fun a b =>
        dist (embed text) a.emb ≤ dist (embed text) b.emb := by
  have hlen : (st.insertionSort fun a b =>
      dist (embed text) a.emb ≤ dist (embed text) b.emb).length = st.length :=
    (List.perm_insertionSort _ st).length_eq
  constructor
  · rw [queryStore, List.length_take, hlen]
    omega
  · haveI : IsTotal StoredRecord fun a b =>
        dist (embed text) a.emb ≤ dist (embed text) b.emb :=
      ⟨fun a b => le_total _ _⟩
    haveI : IsTrans StoredRecord fun a b =>
        dist (embed text) a.emb ≤ dist (embed text) b.emb :=
      ⟨fun _ _ _ hab hbc => le_trans hab hbc⟩
    exact List.Pairwise.sublist (List.take_sublist _ _)
      (List.sorted_insertionSort _ st)

/-- Concrete distance function for the C4 witness. -/
def demoDist (x y : List ℚ) : ℚ := |x.headD 0 - y.headD 0|

/-- Concrete embedding function for the C4 witness. -/
def demoEmbed (c : List Char) : List ℚ := [(c.length : ℚ)]

/-- Concrete store for the C4 witness. -/
def demoStore : List StoredRecord := [⟨"aa".data, [4], 0⟩, ⟨"b".data, [1], 1⟩]

/-- Witness for C4 at a concrete store of two records. -/
theorem query_returns_k_sorted_check :
    (2 : Nat) ≤ demoStore.length ∧
      ((queryStore demoDist demoEmbed demoStore "q".data 2).length = 2 ∧
        (queryStore demoDist demoEmbed demoStore "q".data 2).Sorted fun a b =>
          demoDist (demoEmbed "q".data) a.emb ≤ demoDist (demoEmbed "q".data) b.emb) :=
  ⟨by decide,
    query_returns_k_sorted demoDist demoEmbed demoStore "q".data 2 (by decide)⟩

/-- Claim C6: Write is not idempotent — writing the same chunk list twice
appends one new record per chunk per call, so for a non-empty chunk list
the store after two writes differs from the store after one. -/
theorem write_not_idempotent (embed : List Char → List ℚ)
    (st : List StoredRecord) (chunks : List (List Char)) (h : chunks ≠ []) :
    (writeChunks embed (writeChunks embed st chunks) chunks).length =
        st.length + chunks.length + chunks.length ∧
      writeChunks embed (writeChunks embed st chunks) chunks ≠
        writeChunks embed st chunks := by
  have hlen : ∀ s c, (writeChunks embed s c).length = s.length + c.length := by
    intro s c
    simp [writeChunks, List.enum_length]
  constructor
  · rw [hlen, hlen]
  · intro heq
    have hL := congrArg List.length heq
    simp only [hlen] at hL
    have hc : chunks.length = 0 := by omega
    exact h (List.length_eq_zero.mp hc)

/-- Witness for C6 at a concrete chunk list. -/
theorem write_not_idempotent_check :
    (["a".data] : List (List Char)) ≠ [] ∧
      ((writeChunks (fun _ => []) (writeChunks (fun _ => []) [] ["a".data]) ["a".data]).length =
          0 + 1 + 1 ∧
        writeChunks (fun _ => []) (writeChunks (fun _ => []) [] ["a".data]) ["a".data] ≠
          writeChunks (fun _ => []) [] ["a".data]) := by
  refine ⟨by decide, ?_⟩
  have h := write_not_idempotent (fun _ => []) [] ["a".data] (by decide)
  simpa using h

/-! ### Answer Composer

The two prompt templates are literal strings in the notebook. The
baseline chain fills only the `question` slot; the augmented chain fills
the `context` slot (per the spec, with a concatenation of the retrieved
context strings) and the `question` slot. Slot filling is modelled as a
single left-to-right pass over the template replacing each named slot
marker with its value (the external `ChatPromptTemplate.format`
semantics); inserted values are never rescanned. -/

/-- The opening-brace character that starts a slot marker. -/
def lbrace : Char := Char.ofNat 123

/-- One left-to-right substitution pass: at each position, if some
binding's slot marker starts here, emit its value and skip the marker,
else copy the character. The fuel argument bounds the recursion; it is
instantiated with the template's length. -/
def formatFuel (vals : List (List Char × List Char)) : Nat → List Char → List Char
  | _, [] => []
  | 0, c :: rest => c :: rest
  | fuel + 1, c :: rest =>
    match vals.find? (fun pv => !pv.1.isEmpty && pv.1.isPrefixOf (c :: rest)) with
    | some pv => pv.2 ++ formatFuel vals fuel ((c :: rest).drop pv.1.length)
    | none => c :: formatFuel vals fuel rest

/-- Fill the slots of a template. -/
def formatTmpl (vals : List (List Char × List Char)) (l : List Char) : List Char :=
  formatFuel vals l.length l

/-- Shared preamble of the two templates (literal text from the
notebook). -/
def preambleStr : String := "\nYou are a philosopher that draws inspiration from great thinkers of the past\nto craft well-thought answers to user questions. Use the provided context as the basis\nfor your answers and do not make up new reasoning paths - just mix-and-match what you are given.\nYour answers must be extensively written.\n"

/-- Baseline template text before the question slot. -/
def basePre : List Char := (preambleStr ++ "\nQUESTION: ").data

/-- Template text after the question slot. -/
def basePost : List Char := "\n\nYOUR ANSWER:".data

/-- The question slot marker. -/
def qSlot : List Char := "\x7bquestion\x7d".data

/-- The context slot marker. -/
def ctxSlot : List Char := "\x7bcontext\x7d".data

/-- The context-block header of the augmented template. -/
def ctxHeader : List Char := "CONTEXT:\n".data

/-- Augmented template text before the context header. -/
def preNL : List Char := (preambleStr ++ "\n").data

/-- Augmented template text before the context slot. -/
def augPre : List Char := preNL ++ ctxHeader

/-- Augmented template text between the context slot and the question
slot. -/
def augMid : List Char := "\n\nQUESTION: ".data

/-- The baseline (no-context) prompt template of the notebook. -/
def baselineTemplate : List Char := basePre ++ qSlot ++ basePost

/-- The context-augmented prompt template of the notebook. -/
def augmentedTemplate : List Char := augPre ++ ctxSlot ++ augMid ++ qSlot ++ basePost

/-- Render the baseline prompt for a question. -/
def renderBaseline (q : List Char) : List Char :=
  formatTmpl [(qSlot, q)] baselineTemplate

/-- Render the augmented prompt for a question and an (already
concatenated) context text. -/
def renderAugmented (q ctx : List Char) : List Char :=
  formatTmpl [(ctxSlot, ctx), (qSlot, q)] augmentedTemplate

/-- The Answer Composer's context-augmented prompt: the context slot
receives the concatenation of the retrieved context strings. -/
def composeAugmented (q : List Char) (ctxs : List (List Char)) : List Char :=
  renderAugmented q ctxs.flatten

/-- The context block of a rendered augmented prompt: the header plus the
concatenated context strings. -/
def contextBlock (ctxs : List (List Char)) : List Char := ctxHeader ++ ctxs.flatten

/-! Substitution lemmas. -/

theorem formatFuel_nil (vals : List (List Char × List Char)) (fuel : Nat) :
    formatFuel vals fuel [] = [] := by
  cases fuel <;> rfl

theorem formatFuel_succ (vals : List (List Char × List Char)) (fuel : Nat)
    (c : Char) (rest : List Char) :
    formatFuel vals (fuel + 1) (c :: rest) =
      match vals.find? (fun pv => !pv.1.isEmpty && pv.1.isPrefixOf (c :: rest)) with
      | some pv => pv.2 ++ formatFuel vals fuel ((c :: rest).drop pv.1.length)
      | none => c :: formatFuel vals fuel rest := rfl

theorem isPre_self_append (l r : List Char) : l.isPrefixOf (l ++ r) = true := by
  induction l with
  | nil => simp [List.isPrefixOf]
  | cons c l ih => simp [List.isPrefixOf, ih]

/-- Skipping a slot-free (brace-free) segment: substitution copies it and
continues on the rest. -/
theorem formatFuel_append (vals : List (List Char × List Char))
    (hv : ∀ pv ∈ vals, ∃ t, pv.1 = lbrace :: t) :
    ∀ a : List Char, (∀ c ∈ a, c ≠ lbrace) → ∀ (b : List Char) (fuel : Nat),
      a.length + b.length ≤ fuel →
      formatFuel vals fuel (a ++ b) = a ++ formatFuel vals (fuel - a.length) b := by
  intro a
  induction a with
  | nil => intro _ b fuel _; simp
  | cons c a' ih =>
    intro ha b fuel hfuel
    have hc : c ≠ lbrace := ha c (List.mem_cons_self _ _)
    have ha' : ∀ x ∈ a', x ≠ lbrace := fun x hx => ha x (List.mem_cons_of_mem _ hx)
    cases fuel with
    | zero => simp at hfuel
    | succ f =>
      rw [List.cons_append, formatFuel_succ]
      have hnone : vals.find?
          (fun pv => !pv.1.isEmpty && pv.1.isPrefixOf (c :: (a' ++ b))) = none := by
        rw [List.find?_eq_none]
        intro pv hpv
        obtain ⟨t, hpt⟩ := hv pv hpv
        have hbeq : (lbrace == c) = false := by
          rw [beq_eq_false_iff_ne]
          exact fun hcontra => hc hcontra.symm
        rw [hpt]
        simp [List.isPrefixOf, hbeq]
      rw [hnone]
      have hfuel' : a'.length + b.length ≤ f := by
        simp only [List.length_cons] at hfuel
        omega
      rw [ih ha' b f hfuel']
      have hsub : f + 1 - (c :: a').length = f - a'.length := by
        simp only [List.length_cons]
        omega
      rw [hsub, List.cons_append]

/-- Substitution at a slot position: when the bindings resolve the
position to marker `p` with value `v`, the value is emitted and the
marker skipped. -/
theorem formatFuel_hit (vals : List (List Char × List Char)) (p v b : List Char)
    (fuel : Nat) (hp : p ≠ []) (h1 : 1 ≤ fuel)
    (hfind : vals.find? (fun pv => !pv.1.isEmpty && pv.1.isPrefixOf (p ++ b)) =
      some (p, v)) :
    formatFuel vals fuel (p ++ b) = v ++ formatFuel vals (fuel - 1) b := by
  cases fuel with
  | zero => omega
  | succ f =>
    cases p with
    | nil => exact absurd rfl hp
    | cons c p' =>
      simp only [List.cons_append] at hfind ⊢
      rw [formatFuel_succ, hfind]
      show v ++ formatFuel vals f ((c :: (p' ++ b)).drop (c :: p').length) =
        v ++ formatFuel vals (f + 1 - 1) b
      rw [Nat.add_sub_cancel]
      simp only [List.length_cons, List.drop_succ_cons, List.drop_left]

/-- Substitution leaves a slot-free segment unchanged. -/
theorem formatFuel_clean (vals : List (List Char × List Char))
    (hv : ∀ pv ∈ vals, ∃ t, pv.1 = lbrace :: t) (a : List Char)
    (ha : ∀ c ∈ a, c ≠ lbrace) (fuel : Nat) (hfuel : a.length ≤ fuel) :
    formatFuel vals fuel a = a := by
  have h := formatFuel_append vals hv a ha [] fuel (by simpa using hfuel)
  rw [List.append_nil] at h
  rw [h, formatFuel_nil, List.append_nil]

theorem find_q_single (q b : List Char) :
    List.find? (fun pv => !pv.1.isEmpty && pv.1.isPrefixOf (qSlot ++ b))
      [(qSlot, q)] = some (qSlot, q) := by
  apply List.find?_cons_of_pos
  have h1 : qSlot.isEmpty = false := by decide
  simp [h1, isPre_self_append]

theorem ctxSlot_not_pre (b : List Char) :
    ctxSlot.isPrefixOf (qSlot ++ b) = false := by
  have h1 : ctxSlot = lbrace :: 'c' :: "ontext\x7d".data := by decide
  have h2 : qSlot = lbrace :: 'q' :: "uestion\x7d".data := by decide
  have h3 : ('c' == 'q') = false := by decide
  rw [h1, h2]
  simp [List.isPrefixOf, h3]

theorem find_ctx_double (q ctx b : List Char) :
    List.find? (fun pv => !pv.1.isEmpty && pv.1.isPrefixOf (ctxSlot ++ b))
      [(ctxSlot, ctx), (qSlot, q)] = some (ctxSlot, ctx) := by
  apply List.find?_cons_of_pos
  have h1 : ctxSlot.isEmpty = false := by decide
  simp [h1, isPre_self_append]

theorem find_q_double (q ctx b : List Char) :
    List.find? (fun pv => !pv.1.isEmpty && pv.1.isPrefixOf (qSlot ++ b))
      [(ctxSlot, ctx), (qSlot, q)] = some (qSlot, q) := by
  rw [List.find?_cons_of_neg]
  · exact find_q_single q b
  · simp [ctxSlot_not_pre]

theorem qSlot_shape : ∃ t, qSlot = lbrace :: t :=
  ⟨"question\x7d".data, by decide⟩

theorem ctxSlot_shape : ∃ t, ctxSlot = lbrace :: t :=
  ⟨"context\x7d".data, by decide⟩

theorem vals_shape_single (q : List Char) :
    ∀ pv ∈ [(qSlot, q)], ∃ t, pv.1 = lbrace :: t := by
  intro pv hpv
  rcases List.mem_singleton.mp hpv with rfl
  exact qSlot_shape

theorem vals_shape_double (q ctx : List Char) :
    ∀ pv ∈ [(ctxSlot, ctx), (qSlot, q)], ∃ t, pv.1 = lbrace :: t := by
  intro pv hpv
  rcases List.mem_cons.mp hpv with rfl | hpv
  · exact ctxSlot_shape
  · rcases List.mem_singleton.mp hpv with rfl
    exact qSlot_shape

/-- The rendered baseline prompt is the baseline template with the
question spliced into the question slot. -/
theorem renderBaseline_eq (q : List Char) :
    renderBaseline q = basePre ++ q ++ basePost := by
  have hv := vals_shape_single q
  have ha : ∀ c ∈ basePre, c ≠ lbrace := by decide
  have h24 : qSlot.length + basePost.length = 24 := by decide
  have htmpl : baselineTemplate = basePre ++ (qSlot ++ basePost) := by
    unfold baselineTemplate
    rw [List.append_assoc]
  rw [renderBaseline, formatTmpl, htmpl,
    formatFuel_append [(qSlot, q)] hv basePre ha (qSlot ++ basePost) _
      (by simp [List.length_append])]
  have hsub : (basePre ++ (qSlot ++ basePost)).length - basePre.length = 24 := by
    simp only [List.length_append]
    omega
  rw [hsub,
    formatFuel_hit [(qSlot, q)] qSlot q basePost 24 (by decide) (by decide)
      (find_q_single q basePost),
    formatFuel_clean [(qSlot, q)] hv basePost (by decide) (24 - 1) (by decide),
    List.append_assoc]

/-- The rendered augmented prompt is the augmented template with the
context and question spliced into their slots. -/
theorem renderAugmented_eq (q ctx : List Char) :
    renderAugmented q ctx = augPre ++ ctx ++ augMid ++ q ++ basePost := by
  have hv := vals_shape_double q ctx
  have haug : ∀ c ∈ augPre, c ≠ lbrace := by decide
  have hmid : ∀ c ∈ augMid, c ≠ lbrace := by decide
  have h45 : ctxSlot.length + (augMid.length + (qSlot.length + basePost.length)) = 45 := by
    decide
  have htmpl : augmentedTemplate =
      augPre ++ (ctxSlot ++ (augMid ++ (qSlot ++ basePost))) := by
    unfold augmentedTemplate
    simp [List.append_assoc]
  rw [renderAugmented, formatTmpl, htmpl,
    formatFuel_append [(ctxSlot, ctx), (qSlot, q)] hv augPre haug _ _
      (by simp [List.length_append])]
  have hsub : (augPre ++ (ctxSlot ++ (augMid ++ (qSlot ++ basePost)))).length -
      augPre.length = 45 := by
    simp only [List.length_append]
    omega
  rw [hsub,
    formatFuel_hit [(ctxSlot, ctx), (qSlot, q)] ctxSlot ctx _ 45 (by decide) (by decide)
      (find_ctx_double q ctx _),
    formatFuel_append [(ctxSlot, ctx), (qSlot, q)] hv augMid hmid (qSlot ++ basePost)
      (45 - 1) (by decide)]
  have hsub2 : 45 - 1 - augMid.length = 32 := by decide
  rw [hsub2,
    formatFuel_hit [(ctxSlot, ctx), (qSlot, q)] qSlot q basePost 32 (by decide) (by decide)
      (find_q_double q ctx basePost),
    formatFuel_clean [(ctxSlot, ctx), (qSlot, q)] hv basePost (by decide) (32 - 1)
      (by decide)]
  simp [List.append_assoc]

/-- An occurrence of `pat` inside `a ++ b` lies within `a`, lies within
`b`, or straddles the boundary (a nonempty suffix of `a` followed by a
nonempty prefix of `b`). -/
theorem infixAppendCases {pat a b : List Char} (h : pat <:+: a ++ b) :
    pat <:+: a ∨ pat <:+: b ∨
      ∃ s t, pat = s ++ t ∧ s ≠ [] ∧ t ≠ [] ∧ s <:+ a ∧ t <+: b := by
  rcases h with ⟨u, v, huv⟩
  rw [List.append_assoc] at huv
  rcases List.append_eq_append_iff.mp huv with ⟨w, hw1, hw2⟩ | ⟨w, hw1, hw2⟩
  · rcases List.append_eq_append_iff.mp hw2 with ⟨x, hx1, hx2⟩ | ⟨x, hx1, hx2⟩
    · left
      exact ⟨u, x, by rw [hw1, hx1, List.append_assoc]⟩
    · by_cases hwnil : w = []
      · right; left
        subst hwnil
        simp only [List.nil_append] at hx1
        rw [← hx1] at hx2
        exact ⟨[], v, by simp [hx2]⟩
      · by_cases hxnil : x = []
        · left
          subst hxnil
          rw [List.append_nil] at hx1
          exact ⟨u, [], by rw [List.append_nil, hw1, hx1]⟩
        · right; right
          exact ⟨w, x, hx1, hwnil, hxnil, ⟨u, hw1.symm⟩, ⟨v, hx2.symm⟩⟩
  · right; left
    exact ⟨w, v, by rw [hw2, List.append_assoc]⟩

theorem mem_of_getLastQ : ∀ {l : List Char} {c : Char}, l.getLast? = some c → c ∈ l := by
  intro l
  induction l with
  | nil => intro c hc; simp at hc
  | cons a l ih =>
    intro c hc
    cases l with
    | nil =>
      rw [List.getLast?_singleton] at hc
      rcases Option.some_injective _ hc with rfl
      simp
    | cons b l' =>
      rw [List.getLast?_cons_cons] at hc
      exact List.mem_cons_of_mem _ (ih hc)

/-- Claim C8: the Answer Composer fills the augmented template's context
slot with the concatenation of the provided context strings — the
rendered prompt's context block is exactly the header followed by the
joined context texts. -/
theorem augmented_context_concatenation (q : List Char) (ctxs : List (List Char)) :
    composeAugmented q ctxs = preNL ++ contextBlock ctxs ++ augMid ++ q ++ basePost := by
  rw [composeAugmented, renderAugmented_eq, contextBlock]
  rw [show augPre = preNL ++ ctxHeader from rfl]
  simp [List.append_assoc]

/-- Claim C3 as literally stated is false: for a question that itself
injects the context header, the rendered baseline (no-context) prompt
does contain the context block header. -/
theorem baseline_context_cex :
    ctxHeader <:+: renderBaseline ("CONTEXT:\nWHO".data) := by
  rw [renderBaseline_eq]
  exact ⟨basePre, "WHO".data ++ basePost, by decide⟩

/-- Claim C3 (amended): for every question and non-empty context list,
the context-augmented prompt contains the baseline prompt's filled
question slot plus a non-empty context block, while the baseline
(no-context) rendered prompt contains the context header only if the
question region (the question followed by the trailing template text)
itself contains it — in particular never for questions free of the
header. -/
theorem prompt_context_separation (q : List Char) (ctxs : List (List Char))
    (_h : ctxs ≠ []) :
    ("QUESTION: ".data ++ q) <:+: composeAugmented q ctxs ∧
      contextBlock ctxs ≠ [] ∧
      contextBlock ctxs <:+: composeAugmented q ctxs ∧
      (ctxHeader <:+: renderBaseline q → ctxHeader <:+: q ++ basePost) := by
  refine ⟨?_, ?_, ?_, ?_⟩
  · have hmid : augMid = "\n\n".data ++ "QUESTION: ".data := by decide
    rw [composeAugmented, renderAugmented_eq, hmid]
    refine ⟨augPre ++ ctxs.flatten ++ "\n\n".data, basePost, ?_⟩
    simp [List.append_assoc]
  · rw [contextBlock]
    have hne : ctxHeader ≠ [] := by decide
    exact fun hcontra => hne (List.append_eq_nil.mp hcontra).1
  · rw [composeAugmented, renderAugmented_eq, contextBlock]
    refine ⟨preNL, augMid ++ q ++ basePost, ?_⟩
    rw [show augPre = preNL ++ ctxHeader from rfl]
    simp [List.append_assoc]
  · intro hinf
    rw [renderBaseline_eq, List.append_assoc] at hinf
    rcases infixAppendCases hinf with hcase | hcase | ⟨s, t, hst, hsne, _, hsuf, _⟩
    · exfalso
      have hX : 'X' ∈ ctxHeader := by decide
      rcases hcase with ⟨u, v, huv⟩
      have hmem : 'X' ∈ basePre := by
        rw [← huv]
        simp [hX]
      exact absurd hmem (by decide)
    · exact hcase
    · exfalso
      rcases hsuf with ⟨u, hu⟩
      have hlast : basePre.getLast? = some ' ' := by decide
      rw [← hu, List.getLast?_append] at hlast
      obtain ⟨x, hx⟩ : ∃ x, s.getLast? = some x := by
        cases hs : s.getLast? with
        | none => exact absurd (List.getLast?_eq_none_iff.mp hs) hsne
        | some x => exact ⟨x, rfl⟩
      rw [hx] at hlast
      simp only [Option.or] at hlast
      rcases Option.some_injective _ hlast with rfl
      have hmem : (' ' : Char) ∈ s := mem_of_getLastQ hx
      have hsub : s <+: ctxHeader := ⟨t, hst.symm⟩
      have : (' ' : Char) ∈ ctxHeader := hsub.subset hmem
      exact absurd this (by decide)

/-- Witness for C3 (amended) at a concrete question and context list. -/
theorem prompt_context_separation_check :
    (["alpha".data] : List (List Char)) ≠ [] ∧
      (("QUESTION: ".data ++ "Who?".data) <:+:
          composeAugmented "Who?".data ["alpha".data] ∧
        contextBlock ["alpha".data] ≠ [] ∧
        contextBlock ["alpha".data] <:+:
          composeAugmented "Who?".data ["alpha".data] ∧
        (ctxHeader <:+: renderBaseline "Who?".data →
          ctxHeader <:+: "Who?".data ++ basePost)) :=
  ⟨by decide, prompt_context_separation "Who?".data ["alpha".data] (by decide)⟩

end RagStack
